import Mathlib

/-!
Verification development for the tree-splicer mutation engine
(crates/tree-splicer/src/splice.rs).

The Rust source is embedded shallowly:

* `TSTree` models `tree_sitter::Tree` / `Node`: every node carries an opaque
  identity (`nid`, modelling `Node::id`), a kind label (`Node::kind`) and a
  byte range (`Node::byte_range`) into the text of its snapshot.
* `Rng` models the seeded `StdRng` as an explicit stream of draws: the call
  `gen_range(0..n)` consumes one stream value and reduces it modulo `n`;
  on an empty range (`n = 0`) it panics, exactly as `rand` does.
* `Res` records the three ways a Rust computation here can go: a value,
  a panic, or failure to terminate.  The unbounded rejection-sampling
  loops of the source are given a fuel parameter; exhausting the fuel is
  reported as `Res.diverged`, so "the loop never exits" is expressed as
  "for every fuel the result is `diverged`".
* External collaborators (the tree-sitter parser, the tree-sitter-edit
  renderer, and the `StdRng` seed-to-stream map) live in `Env`.
* `Branches.new` builds the branch table.  In the source the table is a
  `HashMap<&str, HashSet<&[u8]>>` that is materialised into
  `HashMap<&str, Vec<&[u8]>>`; the iteration order used for that
  materialisation (and for the `kinds` vector) is the randomized iteration
  order of Rust's hash containers.  The embedding therefore separates the
  canonical table contents (`Branches.new`, first-occurrence order) from
  the materialisation actually used by a run, which is any list allowed by
  `ValidMaterialization`.
-/

/-- Byte strings (`Vec<u8>` / `&[u8]`) are lists of naturals. -/
abbrev Bytes := List Nat

/-- The data tree-sitter exposes for one node: identity, kind label, byte range. -/
structure NodeInfo where
  nid : Nat
  kind : String
  lo : Nat
  hi : Nat
deriving DecidableEq, Repr

mutual

/-- A parse tree (`tree_sitter::Tree`); the top node is `root_node()`. -/
inductive TSTree where
  | mk (info : NodeInfo) (cs : TSList)
deriving DecidableEq, Repr

/-- Child lists, kept as a mutual inductive so that every recursion over
trees is structural and kernel-reducible. -/
inductive TSList where
  | nil
  | cons (t : TSTree) (ts : TSList)
deriving DecidableEq, Repr

end

/-- Convert a child list to an ordinary list. -/
def TSList.toList : TSList → List TSTree
  | .nil => []
  | .cons t ts => t :: ts.toList

/-- Build a child list from an ordinary list. -/
def TSList.ofList : List TSTree → TSList
  | [] => .nil
  | t :: ts => .cons t (TSList.ofList ts)

mutual

/-- Number of nodes of a tree (root included). -/
def TSTree.size : TSTree → Nat
  | .mk _ cs => 1 + cs.sizeL

/-- Number of nodes of a forest. -/
def TSList.sizeL : TSList → Nat
  | .nil => 0
  | .cons t ts => t.size + ts.sizeL

end

/-- Node identity, `node.id()`. -/
def TSTree.nid : TSTree → Nat
  | .mk info _ => info.nid

/-- Node kind label, `node.kind()`. -/
def TSTree.kindOf : TSTree → String
  | .mk info _ => info.kind

/-- Start of `node.byte_range()`. -/
def TSTree.lo : TSTree → Nat
  | .mk info _ => info.lo

/-- End of `node.byte_range()`. -/
def TSTree.hi : TSTree → Nat
  | .mk info _ => info.hi

/-- The children of a node, in tree order (`node.child(0), node.child(1), ...`). -/
def TSTree.children : TSTree → List TSTree
  | .mk _ cs => cs.toList

/-- Convenient constructor for concrete trees. -/
def tnode (i : Nat) (k : String) (lo hi : Nat) (cs : List TSTree) : TSTree :=
  .mk ⟨i, k, lo, hi⟩ (TSList.ofList cs)

/-- A default node, standing in for the unreachable default of `getD`;
the source uses `.unwrap()` at the corresponding places. -/
def dflt0 : TSTree := .mk ⟨0, "", 0, 0⟩ .nil

/-- The byte slice `&text[lo..hi]`. -/
def sliceB (text : Bytes) (lo hi : Nat) : Bytes := (text.take hi).drop lo

/-- Total size of a forest given as an ordinary list. -/
def sizeList (ns : List TSTree) : Nat := (ns.map TSTree.size).sum

/-- One breadth-first step: the concatenation of the children of a level. -/
def childLevel : List TSTree → List TSTree
  | [] => []
  | t :: ts => t.children ++ childLevel ts

/-- Fueled level-order traversal: emit the current level, then recurse on
the next level.  `sizeList ns` is always enough fuel, since each visited
level consumes at least one node of the forest. -/
def levelOrderF : Nat → List TSTree → List TSTree
  | _, [] => []
  | 0, _ :: _ => []
  | f+1, t :: ts => (t :: ts) ++ levelOrderF f (childLevel (t :: ts))

/-- Level-order traversal of a forest (the BFS worklist loop of the source,
with the natural left-to-right order standing in for the hash-set iteration
order of each level). -/
def level_order (ns : List TSTree) : List TSTree := levelOrderF (sizeList ns) ns

/-- `Splicer::all_nodes`: every node of the tree except the root, in
level order (the source collects each BFS level through a `HashSet`,
so its per-level order is arbitrary; the model fixes the natural one). -/
def all_nodes (tree : TSTree) : List TSTree := level_order tree.children

/-- Outcome of running a piece of the Rust code: a value, a panic
(`gen_range` on an empty range), or non-termination of one of the
unbounded loops (reported when the fuel runs out). -/
inductive Res (α : Type) where
  | ok (a : α)
  | panicked
  | diverged
deriving DecidableEq, Repr

/-- The seeded pseudorandom generator `StdRng`, modelled as an explicit
stream of draws together with a position. -/
structure Rng where
  stream : Nat → Nat
  idx : Nat

/-- `rng.gen_range(0..n)`: consumes one draw; panics when the range is
empty, exactly as `rand`'s `gen_range` does. -/
def Rng.gen_range (r : Rng) (n : Nat) : Res (Nat × Rng) :=
  if n = 0 then .panicked
  else .ok (r.stream r.idx % n, ⟨r.stream, r.idx + 1⟩)

/-- The branch table contents: kind label to recorded fragments
(`Branches(HashMap<&'static str, Vec<&[u8]>>)`). -/
abbrev Branches := List (String × List Bytes)

/-- `HashSet::insert`: add the fragment unless it is already present. -/
def dedupInsert (l : List Bytes) (x : Bytes) : List Bytes :=
  if x ∈ l then l else l ++ [x]

/-- `branches.entry(kind).or_insert_with(HashSet::new).insert(fragment)`. -/
def insertFrag (bl : Branches) (k : String) (x : Bytes) : Branches :=
  match bl with
  | [] => [(k, [x])]
  | (k1, v) :: rest =>
    if k1 = k then (k1, dedupInsert v x) :: rest
    else (k1, v) :: insertFrag rest k x

/-- `branches.0.get(kind)`, with the empty pool for an absent kind
(`cloned().unwrap_or_default()`). -/
def lookupBranch (bl : Branches) (k : String) : List Bytes :=
  match bl with
  | [] => []
  | (k1, v) :: rest => if k1 = k then v else lookupBranch rest k

/-- Record one visited node in the table. -/
def addNode (bl : Branches) (text : Bytes) (nd : TSTree) : Branches :=
  insertFrag bl nd.kindOf (sliceB text nd.lo nd.hi)

/-- Record every node of one corpus tree (the BFS starts at the root,
so the root's own slice is recorded too). -/
def addTree (bl : Branches) (text : Bytes) (t : TSTree) : Branches :=
  (level_order [t]).foldl (fun b nd => addNode b text nd) bl

/-- `Branches::new`: fold every corpus entry into one table.  The order
of entries and of fragments is the canonical first-occurrence order; the
source materialises the same contents in an arbitrary hash order. -/
def Branches.new (files : List (Bytes × TSTree)) : Branches :=
  files.foldl (fun b p => addTree b p.1 p.2) []

/-- `Branches::possible`: the mutation budget, accumulated exactly as the
source loop does (`possible_mutations += s.len() - 1`). -/
def Branches.possible (bl : Branches) : Nat :=
  bl.foldl (fun acc e => acc + (e.2.length - 1)) 0

/-- The generation configuration.  `node_types` stands for the
`NodeTypes` handle of the source's `Config`.
Modelled from the spec: the node-classifier module (`crate::node_types`)
is not part of the given sources; per the spec it is a pure predicate
`IsOptional(grammarHandle, nodeKind) -> bool`, so it is embedded as a
boolean function of the node kind. -/
structure Config where
  chaos : Nat
  deletions : Nat
  inter_splices : Nat
  node_types : String → Bool
  seed : Nat
  tests : Nat

/-- The external collaborators: the tree-sitter parser for the configured
language, the tree-sitter-edit renderer (which may fail), and the map
from a seed to the draw stream of `StdRng::seed_from_u64`. -/
structure Env where
  parse : Bytes → TSTree
  render : TSTree → Bytes → Nat → Bytes → Option Bytes
  std_rng : Nat → Nat → Nat

/-- The `Splicer` state.  Only `rng` and `remaining` are ever mutated by
the source; the helper functions below therefore thread `Rng` explicitly
and leave the rest read-only. -/
structure Splicer where
  branches : Branches
  chaos : Nat
  deletions : Nat
  kinds : List String
  inter_splices : Nat
  node_types : String → Bool
  trees : List (Bytes × TSTree)
  remaining : Nat
  rng : Rng

/-- `Splicer::pick_node`: uniform pick from `all_nodes`, the root when the
tree has no other node (no draw is consumed in that case). -/
def pick_node (tree : TSTree) (r : Rng) : Res (TSTree × Rng) :=
  match all_nodes tree with
  | [] => .ok (tree, r)
  | n0 :: rest =>
    match r.gen_range (n0 :: rest).length with
    | .ok (i, r1) => .ok ((n0 :: rest).getD i tree, r1)
    | .panicked => .panicked
    | .diverged => .diverged

/-- The rejection-sampling loop of `Splicer::delete_node`: redraw a node
until an optional one comes up.  The source bounds this loop by nothing;
the fuel only makes that observable. -/
def delete_loop (S : Splicer) (nodes : List TSTree) : Nat → Rng → Res (TSTree × Rng)
  | 0, _ => .diverged
  | fuel+1, r =>
    match r.gen_range nodes.length with
    | .ok (i, r1) =>
      let nd := nodes.getD i dflt0
      if S.node_types nd.kindOf then .ok (nd, r1) else delete_loop S nodes fuel r1
    | .panicked => .panicked
    | .diverged => .diverged

/-- `Splicer::delete_node`: chaos roll, then either an unrestricted pick
(chaotic, or fallback when no node is optional) or rejection sampling for
an optional node; the replacement is always empty. -/
def Splicer.delete_node (S : Splicer) (_text : Bytes) (tree : TSTree) (fuel : Nat)
    (r : Rng) : Res ((Nat × Bytes) × Rng) :=
  match r.gen_range 100 with
  | .ok (roll, r1) =>
    if roll < S.chaos then
      match pick_node tree r1 with
      | .ok (nd, r2) => .ok ((nd.nid, []), r2)
      | .panicked => .panicked
      | .diverged => .diverged
    else
      if (all_nodes tree).all (fun nd => ! S.node_types nd.kindOf) then
        match pick_node tree r1 with
        | .ok (nd, r2) => .ok ((nd.nid, []), r2)
        | .panicked => .panicked
        | .diverged => .diverged
      else
        match delete_loop S (all_nodes tree) fuel r1 with
        | .ok (nd, r2) => .ok ((nd.nid, []), r2)
        | .panicked => .panicked
        | .diverged => .diverged
  | .panicked => .panicked
  | .diverged => .diverged

/-- The fallback kind used by `getD` on the kinds vector; unreachable,
since the index returned by `gen_range` is below the vector length. -/
def noKind : String := ""

/-- The search loop of `Splicer::splice_node`: repick a node (and, when
chaotic, a random kind) until the candidate pool has at least two
elements.  The source bounds this loop by nothing. -/
def splice_search (S : Splicer) (tree : TSTree) (chaotic : Bool) :
    Nat → Rng → Res ((TSTree × List Bytes) × Rng)
  | 0, _ => .diverged
  | fuel+1, r =>
    match pick_node tree r with
    | .ok (nd, r1) =>
      match (if chaotic then
              match r1.gen_range S.kinds.length with
              | .ok (ki, r2) => Res.ok (lookupBranch S.branches (S.kinds.getD ki noKind), r2)
              | .panicked => Res.panicked
              | .diverged => Res.diverged
            else Res.ok (lookupBranch S.branches nd.kindOf, r1)) with
      | .ok (cands, r2) =>
        if cands.length ≤ 1 then splice_search S tree chaotic fuel r2
        else .ok ((nd, cands), r2)
      | .panicked => .panicked
      | .diverged => .diverged
    | .panicked => .panicked
    | .diverged => .diverged

/-- The no-op-avoidance loop of `Splicer::splice_node`: while the pool has
more than one element and the candidate equals the node's own text, redraw. -/
def resample_loop (cands : List Bytes) (ntext : Bytes) :
    Nat → Bytes → Rng → Res (Bytes × Rng)
  | fuel, cand, r =>
    if 1 < cands.length ∧ cand = ntext then
      match fuel with
      | 0 => .diverged
      | f+1 =>
        match r.gen_range cands.length with
        | .ok (i, r1) => resample_loop cands ntext f (cands.getD i []) r1
        | .panicked => .panicked
        | .diverged => .diverged
    else .ok (cand, r)

/-- `Splicer::splice_node`: chaos roll, candidate-pool search, a uniform
draw from the pool, then no-op avoidance; returns the target node identity
and the replacement bytes. -/
def Splicer.splice_node (S : Splicer) (text : Bytes) (tree : TSTree) (fuel : Nat)
    (r : Rng) : Res ((Nat × Bytes) × Rng) :=
  match r.gen_range 100 with
  | .ok (roll, r1) =>
    match splice_search S tree (decide (roll < S.chaos)) fuel r1 with
    | .ok ((nd, cands), r2) =>
      match r2.gen_range cands.length with
      | .ok (i, r3) =>
        match resample_loop cands (sliceB text nd.lo nd.hi) fuel (cands.getD i []) r3 with
        | .ok (cand, r4) => .ok ((nd.nid, cand), r4)
        | .panicked => .panicked
        | .diverged => .diverged
      | .panicked => .panicked
      | .diverged => .diverged
    | .panicked => .panicked
    | .diverged => .diverged
  | .panicked => .panicked
  | .diverged => .diverged

/-- The round loop of `Splicer::splice_tree`: each round rolls deletion
versus splice, obtains an edit, renders it (a render failure makes the
whole splice yield `None`), and reparses the rendered text. -/
def splice_rounds (env : Env) (S : Splicer) (fuel : Nat) :
    Nat → Bytes → TSTree → Rng → Res (Option Bytes × Rng)
  | 0, text, _, r => .ok (some text, r)
  | k+1, text, tree, r =>
    match r.gen_range 100 with
    | .ok (roll, r1) =>
      match (if roll < S.deletions then S.delete_node text tree fuel r1
             else S.splice_node text tree fuel r1) with
      | .ok ((nid, bytes), r2) =>
        match env.render tree text nid bytes with
        | none => .ok (none, r2)
        | some text2 => splice_rounds env S fuel k text2 (env.parse text2) r2
      | .panicked => .panicked
      | .diverged => .diverged
    | .panicked => .panicked
    | .diverged => .diverged

/-- `Splicer::splice_tree`: draw the round count from
`0..inter_splices` (a panic when `inter_splices = 0`), then run the rounds. -/
def Splicer.splice_tree (env : Env) (S : Splicer) (fuel : Nat) (text0 : Bytes)
    (tree : TSTree) (r : Rng) : Res (Option Bytes × Rng) :=
  match r.gen_range S.inter_splices with
  | .ok (splices, r1) => splice_rounds env S fuel splices text0 tree r1
  | .panicked => .panicked
  | .diverged => .diverged

/-- `<Splicer as Iterator>::next`: stop at `remaining = 0`, otherwise
decrement the budget, pick a corpus entry uniformly, and splice it; a
render failure inside `splice_tree` yields `none` for this item only. -/
def Splicer.next (env : Env) (fuel : Nat) (S : Splicer) : Res (Option Bytes × Splicer) :=
  if S.remaining = 0 then .ok (none, S)
  else
    match S.rng.gen_range S.trees.length with
    | .ok (i, r1) =>
      match Splicer.splice_tree env S fuel (S.trees.getD i ([], dflt0)).1
          (S.trees.getD i ([], dflt0)).2 r1 with
      | .ok (o, r2) => .ok (o, { S with remaining := S.remaining - 1, rng := r2 })
      | .panicked => .panicked
      | .diverged => .diverged
    | .panicked => .panicked
    | .diverged => .diverged

/-- The `splice` constructor, parametrised by the materialised branch
table `bl` (contents fixed by the corpus, order chosen by the hash
containers): `kinds` is the key vector of that materialisation,
`remaining` is `min(tests, possible)`, and the generator is seeded from
the config. -/
def splice (env : Env) (cfg : Config) (files : List (Bytes × TSTree))
    (bl : Branches) : Splicer :=
  { branches := bl
    chaos := cfg.chaos
    deletions := cfg.deletions
    kinds := bl.map Prod.fst
    inter_splices := cfg.inter_splices
    node_types := cfg.node_types
    trees := files
    remaining := min cfg.tests (Branches.possible bl)
    rng := ⟨env.std_rng cfg.seed, 0⟩ }

/-- `splice` with the canonical materialisation of the branch table. -/
def spliceCanon (env : Env) (cfg : Config) (files : List (Bytes × TSTree)) : Splicer :=
  splice env cfg files (Branches.new files)

/-- Call `next` the given number of times, collecting each item's outcome;
a panic or divergence ends the run. -/
def runResults (env : Env) (fuel : Nat) : Splicer → Nat → List (Res (Option Bytes))
  | _, 0 => []
  | S, n+1 =>
    match Splicer.next env fuel S with
    | .ok (o, S1) => .ok o :: runResults env fuel S1 n
    | .panicked => [.panicked]
    | .diverged => [.diverged]

/-- The number of items actually yielded in a run. -/
def countSome : List (Res (Option Bytes)) → Nat
  | [] => 0
  | .ok (some _) :: t => countSome t + 1
  | .ok none :: t => countSome t
  | .panicked :: t => countSome t
  | .diverged :: t => countSome t

/-- `bl` is a possible hash-order materialisation of the branch table of
`files`: same kinds, same fragment sets, no duplicates — exactly what the
source guarantees, since `HashMap`/`HashSet` iteration order is arbitrary. -/
def ValidMaterialization (files : List (Bytes × TSTree)) (bl : Branches) : Prop :=
  (bl.map Prod.fst).Nodup ∧
  (∀ k ∈ bl.map Prod.fst, k ∈ (Branches.new files).map Prod.fst) ∧
  (∀ k ∈ (Branches.new files).map Prod.fst, k ∈ bl.map Prod.fst) ∧
  (∀ e ∈ bl, e.2.Nodup ∧
    (∀ x ∈ e.2, x ∈ lookupBranch (Branches.new files) e.1) ∧
    (∀ x ∈ lookupBranch (Branches.new files) e.1, x ∈ e.2))

instance (files : List (Bytes × TSTree)) (bl : Branches) :
    Decidable (ValidMaterialization files bl) := by
  unfold ValidMaterialization
  infer_instance

/-! ### Basic facts about the embedded primitives -/

theorem gen_range_ok_lt {r : Rng} {n i : Nat} {r1 : Rng}
    (h : r.gen_range n = .ok (i, r1)) : i < n := by
  unfold Rng.gen_range at h
  by_cases h0 : n = 0
  · rw [if_pos h0] at h
    cases h
  · rw [if_neg h0] at h
    simp only [Res.ok.injEq, Prod.mk.injEq] at h
    exact h.1 ▸ Nat.mod_lt _ (Nat.pos_of_ne_zero h0)

theorem gen_range_of_ne_zero {n : Nat} (r : Rng) (h : n ≠ 0) :
    r.gen_range n = .ok (r.stream r.idx % n, ⟨r.stream, r.idx + 1⟩) := by
  unfold Rng.gen_range
  rw [if_neg h]

theorem getD_mem_of_lt {α : Type} {l : List α} {i : Nat} (d : α)
    (h : i < l.length) : l.getD i d ∈ l := by
  rw [List.getD_eq_getElem l d h]
  exact List.getElem_mem h

theorem mem_dedupInsert {l : List Bytes} {x y : Bytes} :
    y ∈ dedupInsert l x ↔ y ∈ l ∨ y = x := by
  unfold dedupInsert
  by_cases h : x ∈ l
  · rw [if_pos h]
    constructor
    · exact Or.inl
    · rintro (h2 | rfl)
      exacts [h2, h]
  · rw [if_neg h]
    simp [List.mem_append]

theorem dedupInsert_ne_nil {l : List Bytes} {x : Bytes} : dedupInsert l x ≠ [] := by
  unfold dedupInsert
  by_cases h : x ∈ l
  · rw [if_pos h]
    rintro rfl
    cases h
  · rw [if_neg h]
    simp

theorem dedupInsert_nodup {l : List Bytes} {x : Bytes} (h : l.Nodup) :
    (dedupInsert l x).Nodup := by
  unfold dedupInsert
  by_cases hx : x ∈ l
  · rwa [if_pos hx]
  · rw [if_neg hx]
    rw [List.nodup_append]
    refine ⟨h, List.nodup_singleton x, ?_⟩
    intro a ha hax
    rw [List.mem_singleton] at hax
    exact hx (hax ▸ ha)

/-! ### The branch-table construction -/

theorem lookup_insertFrag (bl : Branches) (k k2 : String) (x : Bytes) :
    lookupBranch (insertFrag bl k x) k2 =
      if k2 = k then dedupInsert (lookupBranch bl k) x else lookupBranch bl k2 := by
  induction bl with
  | nil =>
    by_cases h : k2 = k
    · subst h
      simp [insertFrag, lookupBranch, dedupInsert]
    · simp [insertFrag, lookupBranch, h, Ne.symm h]
  | cons e rest ih =>
    obtain ⟨k1, v⟩ := e
    by_cases h1 : k1 = k
    · subst h1
      simp only [insertFrag, if_pos rfl]
      by_cases h2 : k2 = k1
      · subst h2
        simp [lookupBranch]
      · simp [lookupBranch, h2, Ne.symm h2]
    · simp only [insertFrag, if_neg h1]
      by_cases h2 : k1 = k2
      · subst h2
        simp [lookupBranch, h1]
      · simp only [lookupBranch, if_neg h2]
        rw [ih]
        by_cases h3 : k2 = k
        · subst h3
          simp [if_neg h2]
        · simp [h3]

theorem mem_keys_insertFrag {bl : Branches} {k k2 : String} {x : Bytes} :
    k2 ∈ (insertFrag bl k x).map Prod.fst ↔ k2 ∈ bl.map Prod.fst ∨ k2 = k := by
  induction bl with
  | nil => simp [insertFrag]
  | cons e rest ih =>
    obtain ⟨k1, v⟩ := e
    by_cases h1 : k1 = k
    · subst h1
      rw [show insertFrag ((k1, v) :: rest) k1 x = (k1, dedupInsert v x) :: rest by
        simp [insertFrag]]
      simp only [List.map_cons, List.mem_cons]
      tauto
    · rw [show insertFrag ((k1, v) :: rest) k x = (k1, v) :: insertFrag rest k x by
        simp [insertFrag, h1]]
      simp only [List.map_cons, List.mem_cons]
      rw [ih]
      tauto

theorem entries_insertFrag {bl : Branches} {k : String} {x : Bytes}
    (h : ∀ e ∈ bl, e.2 ≠ [] ∧ e.2.Nodup) :
    ∀ e ∈ insertFrag bl k x, e.2 ≠ [] ∧ e.2.Nodup := by
  induction bl with
  | nil =>
    intro e he
    simp only [insertFrag, List.mem_singleton] at he
    subst he
    exact ⟨by simp, List.nodup_singleton x⟩
  | cons e0 rest ih =>
    obtain ⟨k1, v⟩ := e0
    by_cases h1 : k1 = k
    · subst h1
      intro e he
      rw [show insertFrag ((k1, v) :: rest) k1 x = (k1, dedupInsert v x) :: rest by
        simp [insertFrag]] at he
      rcases List.mem_cons.mp he with rfl | he2
      · have hv := h (k1, v) (List.mem_cons_self _ _)
        exact ⟨dedupInsert_ne_nil, dedupInsert_nodup hv.2⟩
      · exact h e (List.mem_cons_of_mem _ he2)
    · intro e he
      rw [show insertFrag ((k1, v) :: rest) k x = (k1, v) :: insertFrag rest k x by
        simp [insertFrag, h1]] at he
      rcases List.mem_cons.mp he with rfl | he2
      · exact h (k1, v) (List.mem_cons_self _ _)
      · exact ih (fun e2 he2 => h e2 (List.mem_cons_of_mem _ he2)) e he2

theorem keys_nodup_insertFrag {bl : Branches} {k : String} {x : Bytes}
    (h : (bl.map Prod.fst).Nodup) :
    ((insertFrag bl k x).map Prod.fst).Nodup := by
  induction bl with
  | nil => simp [insertFrag]
  | cons e0 rest ih =>
    obtain ⟨k1, v⟩ := e0
    simp only [List.map_cons, List.nodup_cons] at h
    by_cases h1 : k1 = k
    · subst h1
      rw [show insertFrag ((k1, v) :: rest) k1 x = (k1, dedupInsert v x) :: rest by
        simp [insertFrag]]
      simp only [List.map_cons, List.nodup_cons]
      exact h
    · rw [show insertFrag ((k1, v) :: rest) k x = (k1, v) :: insertFrag rest k x by
        simp [insertFrag, h1]]
      simp only [List.map_cons, List.nodup_cons]
      refine ⟨?_, ih h.2⟩
      rw [mem_keys_insertFrag]
      rintro (h2 | h2)
      · exact h.1 h2
      · exact h1 h2

theorem lookup_foldl_addNode (ns : List TSTree) (bl : Branches) (text : Bytes)
    (k : String) (x : Bytes) :
    x ∈ lookupBranch (ns.foldl (fun b nd => addNode b text nd) bl) k ↔
      x ∈ lookupBranch bl k ∨ ∃ nd ∈ ns, nd.kindOf = k ∧ x = sliceB text nd.lo nd.hi := by
  induction ns generalizing bl with
  | nil => simp
  | cons nd rest ih =>
    simp only [List.foldl_cons]
    rw [ih]
    show x ∈ lookupBranch (insertFrag bl nd.kindOf (sliceB text nd.lo nd.hi)) k ∨ _ ↔ _
    rw [lookup_insertFrag]
    by_cases h : k = nd.kindOf
    · rw [if_pos h]
      rw [mem_dedupInsert]
      constructor
      · rintro ((hx | rfl) | hx)
        · exact Or.inl (h ▸ hx)
        · exact Or.inr ⟨nd, List.mem_cons_self _ _, h.symm, rfl⟩
        · obtain ⟨nd2, hnd2, hk, hx⟩ := hx
          exact Or.inr ⟨nd2, List.mem_cons_of_mem _ hnd2, hk, hx⟩
      · rintro (hx | ⟨nd2, hnd2, hk, hx⟩)
        · exact Or.inl (Or.inl (h ▸ hx))
        · rcases List.mem_cons.mp hnd2 with rfl | hnd2
          · exact Or.inl (Or.inr hx)
          · exact Or.inr ⟨nd2, hnd2, hk, hx⟩
    · rw [if_neg h]
      constructor
      · rintro (hx | ⟨nd2, hnd2, hk, hx⟩)
        · exact Or.inl hx
        · exact Or.inr ⟨nd2, List.mem_cons_of_mem _ hnd2, hk, hx⟩
      · rintro (hx | ⟨nd2, hnd2, hk, hx⟩)
        · exact Or.inl hx
        · rcases List.mem_cons.mp hnd2 with rfl | hnd2
          · exact absurd hk.symm h
          · exact Or.inr ⟨nd2, hnd2, hk, hx⟩

theorem mem_keys_foldl_addNode (ns : List TSTree) (bl : Branches) (text : Bytes)
    (k : String) :
    k ∈ (ns.foldl (fun b nd => addNode b text nd) bl).map Prod.fst ↔
      k ∈ bl.map Prod.fst ∨ ∃ nd ∈ ns, nd.kindOf = k := by
  induction ns generalizing bl with
  | nil => simp
  | cons nd rest ih =>
    simp only [List.foldl_cons]
    rw [ih]
    show k ∈ (insertFrag bl nd.kindOf _).map Prod.fst ∨ _ ↔ _
    rw [mem_keys_insertFrag]
    constructor
    · rintro ((hx | rfl) | ⟨nd2, hnd2, hk⟩)
      · exact Or.inl hx
      · exact Or.inr ⟨nd, List.mem_cons_self _ _, rfl⟩
      · exact Or.inr ⟨nd2, List.mem_cons_of_mem _ hnd2, hk⟩
    · rintro (hx | ⟨nd2, hnd2, hk⟩)
      · exact Or.inl (Or.inl hx)
      · rcases List.mem_cons.mp hnd2 with rfl | hnd2
        · exact Or.inl (Or.inr hk.symm)
        · exact Or.inr ⟨nd2, hnd2, hk⟩

theorem table_inv_foldl_addNode (ns : List TSTree) (bl : Branches) (text : Bytes)
    (h1 : (bl.map Prod.fst).Nodup) (h2 : ∀ e ∈ bl, e.2 ≠ [] ∧ e.2.Nodup) :
    ((ns.foldl (fun b nd => addNode b text nd) bl).map Prod.fst).Nodup ∧
      ∀ e ∈ ns.foldl (fun b nd => addNode b text nd) bl, e.2 ≠ [] ∧ e.2.Nodup := by
  induction ns generalizing bl with
  | nil => exact ⟨h1, h2⟩
  | cons nd rest ih =>
    exact ih _ (keys_nodup_insertFrag h1) (entries_insertFrag h2)

theorem mem_lookup_new (files : List (Bytes × TSTree)) (k : String) (x : Bytes) :
    x ∈ lookupBranch (Branches.new files) k ↔
      ∃ p ∈ files, ∃ nd ∈ level_order [p.2],
        nd.kindOf = k ∧ x = sliceB p.1 nd.lo nd.hi := by
  have main : ∀ (fs : List (Bytes × TSTree)) (bl : Branches),
      x ∈ lookupBranch (fs.foldl (fun b p => addTree b p.1 p.2) bl) k ↔
        x ∈ lookupBranch bl k ∨ ∃ p ∈ fs, ∃ nd ∈ level_order [p.2],
          nd.kindOf = k ∧ x = sliceB p.1 nd.lo nd.hi := by
    intro fs
    induction fs with
    | nil => simp
    | cons p rest ih =>
      intro bl
      simp only [List.foldl_cons]
      rw [ih]
      show x ∈ lookupBranch (addTree bl p.1 p.2) k ∨ _ ↔ _
      unfold addTree
      rw [lookup_foldl_addNode]
      constructor
      · rintro ((hx | ⟨nd, hnd, hk, hx⟩) | ⟨p2, hp2, rest2⟩)
        · exact Or.inl hx
        · exact Or.inr ⟨p, List.mem_cons_self _ _, nd, hnd, hk, hx⟩
        · exact Or.inr ⟨p2, List.mem_cons_of_mem _ hp2, rest2⟩
      · rintro (hx | ⟨p2, hp2, rest2⟩)
        · exact Or.inl (Or.inl hx)
        · rcases List.mem_cons.mp hp2 with rfl | hp2
          · exact Or.inl (Or.inr rest2)
          · exact Or.inr ⟨p2, hp2, rest2⟩
  have h := main files []
  simpa [Branches.new, lookupBranch] using h

theorem mem_keys_new (files : List (Bytes × TSTree)) (k : String) :
    k ∈ (Branches.new files).map Prod.fst ↔
      ∃ p ∈ files, ∃ nd ∈ level_order [p.2], nd.kindOf = k := by
  have main : ∀ (fs : List (Bytes × TSTree)) (bl : Branches),
      k ∈ (fs.foldl (fun b p => addTree b p.1 p.2) bl).map Prod.fst ↔
        k ∈ bl.map Prod.fst ∨ ∃ p ∈ fs, ∃ nd ∈ level_order [p.2], nd.kindOf = k := by
    intro fs
    induction fs with
    | nil => simp
    | cons p rest ih =>
      intro bl
      simp only [List.foldl_cons]
      rw [ih]
      show k ∈ (addTree bl p.1 p.2).map Prod.fst ∨ _ ↔ _
      unfold addTree
      rw [mem_keys_foldl_addNode]
      constructor
      · rintro ((hx | ⟨nd, hnd, hk⟩) | ⟨p2, hp2, rest2⟩)
        · exact Or.inl hx
        · exact Or.inr ⟨p, List.mem_cons_self _ _, nd, hnd, hk⟩
        · exact Or.inr ⟨p2, List.mem_cons_of_mem _ hp2, rest2⟩
      · rintro (hx | ⟨p2, hp2, rest2⟩)
        · exact Or.inl (Or.inl hx)
        · rcases List.mem_cons.mp hp2 with rfl | hp2
          · exact Or.inl (Or.inr rest2)
          · exact Or.inr ⟨p2, hp2, rest2⟩
  have h := main files []
  simpa [Branches.new] using h

theorem table_inv_new (files : List (Bytes × TSTree)) :
    ((Branches.new files).map Prod.fst).Nodup ∧
      ∀ e ∈ Branches.new files, e.2 ≠ [] ∧ e.2.Nodup := by
  have main : ∀ (fs : List (Bytes × TSTree)) (bl : Branches),
      (bl.map Prod.fst).Nodup → (∀ e ∈ bl, e.2 ≠ [] ∧ e.2.Nodup) →
      ((fs.foldl (fun b p => addTree b p.1 p.2) bl).map Prod.fst).Nodup ∧
        ∀ e ∈ fs.foldl (fun b p => addTree b p.1 p.2) bl, e.2 ≠ [] ∧ e.2.Nodup := by
    intro fs
    induction fs with
    | nil => exact fun bl h1 h2 => ⟨h1, h2⟩
    | cons p rest ih =>
      intro bl h1 h2
      simp only [List.foldl_cons]
      have step := table_inv_foldl_addNode (level_order [p.2]) bl p.1 h1 h2
      exact ih _ step.1 step.2
  have h := main files [] (by simp) (by simp)
  simpa [Branches.new] using h

theorem lookup_nodup {bl : Branches} (h : ∀ e ∈ bl, e.2.Nodup) (k : String) :
    (lookupBranch bl k).Nodup := by
  induction bl with
  | nil => simp [lookupBranch]
  | cons e rest ih =>
    obtain ⟨k1, v⟩ := e
    simp only [lookupBranch]
    by_cases h1 : k1 = k
    · rw [if_pos h1]
      exact h (k1, v) (List.mem_cons_self _ _)
    · rw [if_neg h1]
      exact ih fun e2 he2 => h e2 (List.mem_cons_of_mem _ he2)

theorem lookup_nodup_new (files : List (Bytes × TSTree)) (k : String) :
    (lookupBranch (Branches.new files) k).Nodup :=
  lookup_nodup (fun e he => ((table_inv_new files).2 e he).2) k

theorem possible_foldl (bl : Branches) (c : Nat) :
    bl.foldl (fun acc e => acc + (e.2.length - 1)) c =
      c + (bl.map fun e => e.2.length - 1).sum := by
  induction bl generalizing c with
  | nil => simp
  | cons e rest ih =>
    simp only [List.foldl_cons, List.map_cons, List.sum_cons, ih]
    omega

theorem natsum_intsum (l : Branches) (h : ∀ e ∈ l, e.2 ≠ []) :
    (((l.map fun e => e.2.length - 1).sum : Nat) : ℤ) =
      (l.map fun e => (e.2.length : ℤ) - 1).sum := by
  induction l with
  | nil => simp
  | cons e rest ih =>
    simp only [List.map_cons, List.sum_cons]
    have h1 : 1 ≤ e.2.length :=
      List.length_pos.mpr (h e (List.mem_cons_self e rest))
    rw [Nat.cast_add, Nat.cast_sub h1,
      ih fun e2 he2 => h e2 (List.mem_cons_of_mem _ he2)]
    norm_num

/-- C6: for every corpus, the mutation budget `Branches::possible` of the
branch table equals the sum over all kinds present in the table of the
number of distinct fragments recorded for that kind minus one.  Every pool
of the table is non-empty, so the `usize` subtraction `s.len() - 1` never
underflows: the natural-number value agrees with the same sum computed
over the integers, hence is non-negative, and a kind contributing exactly
one distinct fragment contributes zero to it. -/
theorem C6_mutation_budget (files : List (Bytes × TSTree)) :
    (∀ e ∈ Branches.new files, e.2 ≠ []) ∧
      ((Branches.possible (Branches.new files) : ℤ) =
        ((Branches.new files).map fun e => (e.2.length : ℤ) - 1).sum) ∧
      0 ≤ ((Branches.new files).map fun e => (e.2.length : ℤ) - 1).sum := by
  have hne : ∀ e ∈ Branches.new files, e.2 ≠ [] :=
    fun e he => ((table_inv_new files).2 e he).1
  have heq : (Branches.possible (Branches.new files) : ℤ) =
      ((Branches.new files).map fun e => (e.2.length : ℤ) - 1).sum := by
    unfold Branches.possible
    rw [possible_foldl]
    simp only [Nat.zero_add]
    exact natsum_intsum _ hne
  refine ⟨hne, heq, ?_⟩
  rw [← heq]
  exact Int.natCast_nonneg _

/-- C7: the branch table built by `Branches::new` stores, for each kind it
contains, a non-empty pool of pairwise-distinct fragments (set semantics),
has no duplicate kind entries, and contains a kind exactly when some node
of that kind is visited in some corpus tree — kinds absent from the corpus
are absent from the table, with no default or empty entries. -/
theorem C7_branch_table_invariants (files : List (Bytes × TSTree)) :
    ((Branches.new files).map Prod.fst).Nodup ∧
      (∀ e ∈ Branches.new files, e.2 ≠ [] ∧ e.2.Nodup) ∧
      ∀ k : String, (∃ e ∈ Branches.new files, e.1 = k) ↔
        ∃ p ∈ files, ∃ nd ∈ level_order [p.2], nd.kindOf = k := by
  obtain ⟨h1, h2⟩ := table_inv_new files
  refine ⟨h1, h2, fun k => ?_⟩
  rw [← mem_keys_new]
  simp [List.mem_map]

/-! ### Iterator-level facts -/

theorem gen_range_zero (r : Rng) : r.gen_range 0 = .panicked := rfl

theorem next_of_remaining_zero (env : Env) (fuel : Nat) (S : Splicer)
    (h : S.remaining = 0) : Splicer.next env fuel S = .ok (none, S) := by
  unfold Splicer.next
  rw [if_pos h]

theorem runResults_of_remaining_zero (env : Env) (fuel : Nat) (S : Splicer)
    (n : Nat) (h : S.remaining = 0) :
    runResults env fuel S n = List.replicate n (Res.ok none) := by
  induction n with
  | zero => rfl
  | succ n ih =>
    simp only [runResults]
    rw [next_of_remaining_zero env fuel S h]
    simp [List.replicate_succ, ih]

theorem next_ok_cases {env : Env} {fuel : Nat} {S : Splicer}
    {o : Option Bytes} {S1 : Splicer}
    (h : Splicer.next env fuel S = .ok (o, S1)) :
    (S.remaining = 0 ∧ o = none ∧ S1 = S) ∨
      (S.remaining ≠ 0 ∧ S1.remaining = S.remaining - 1 ∧
        S1.trees = S.trees ∧ S1.inter_splices = S.inter_splices) := by
  unfold Splicer.next at h
  by_cases h0 : S.remaining = 0
  · rw [if_pos h0] at h
    simp only [Res.ok.injEq, Prod.mk.injEq] at h
    exact Or.inl ⟨h0, h.1.symm, h.2.symm⟩
  · rw [if_neg h0] at h
    refine Or.inr ⟨h0, ?_⟩
    split at h
    · split at h
      · simp only [Res.ok.injEq, Prod.mk.injEq] at h
        rw [← h.2]
        exact ⟨rfl, rfl, rfl⟩
      · cases h
      · cases h
    · cases h
    · cases h

theorem countSome_le_remaining (env : Env) (fuel : Nat) :
    ∀ (n : Nat) (S : Splicer),
    countSome (runResults env fuel S n) ≤ S.remaining := by
  intro n
  induction n with
  | zero => intro S; simp [runResults, countSome]
  | succ n ih =>
    intro S
    simp only [runResults]
    cases hnext : Splicer.next env fuel S with
    | ok p =>
      obtain ⟨o, S1⟩ := p
      rcases next_ok_cases hnext with ⟨h0, rfl, rfl⟩ | ⟨h0, h1, -, -⟩
      · simpa [countSome] using ih S1
      · have hrec := ih S1
        cases o with
        | some b =>
          simp only [countSome]
          omega
        | none =>
          simp only [countSome]
          omega
    | panicked => simp [countSome]
    | diverged => simp [countSome]

/-- C3: for every Config the generator yields at most
`min(tests, Branches::possible)` items — `remaining` starts there and every
`next` call yields at most one item and decrements it — and for any branch
table with budget 0 (as produced by an empty corpus or by a single file
whose tree is a bare root) every call returns cleanly with no item and no
panic, regardless of the requested test count. -/
theorem C3_yield_cap (env : Env) (fuel : Nat) (cfg : Config)
    (files : List (Bytes × TSTree)) (bl : Branches) (n : Nat)
    (h : Branches.possible bl = 0) :
    (∀ (cfg2 : Config) (files2 : List (Bytes × TSTree)) (bl2 : Branches),
      countSome (runResults env fuel (splice env cfg2 files2 bl2) n) ≤
        min cfg2.tests (Branches.possible bl2)) ∧
      runResults env fuel (splice env cfg files bl) n =
        List.replicate n (Res.ok none) := by
  constructor
  · intro cfg2 files2 bl2
    have h2 := countSome_le_remaining env fuel n (splice env cfg2 files2 bl2)
    simpa [splice] using h2
  · apply runResults_of_remaining_zero
    simp [splice, h]

theorem splice_tree_one (env : Env) (S : Splicer) (fuel : Nat) (text : Bytes)
    (tree : TSTree) (r : Rng) (h1 : S.inter_splices = 1) :
    Splicer.splice_tree env S fuel text tree r =
      .ok (some text, ⟨r.stream, r.idx + 1⟩) := by
  unfold Splicer.splice_tree
  rw [h1, gen_range_of_ne_zero r one_ne_zero]
  dsimp only
  rw [Nat.mod_one]
  rfl

theorem splice_tree_zero (env : Env) (S : Splicer) (fuel : Nat) (text : Bytes)
    (tree : TSTree) (r : Rng) (h1 : S.inter_splices = 0) :
    Splicer.splice_tree env S fuel text tree r = .panicked := by
  unfold Splicer.splice_tree
  rw [h1]
  rfl

theorem c4_aux (env : Env) (fuel : Nat) : ∀ (n : Nat) (S : Splicer) (b : Bytes),
    S.inter_splices = 1 → Res.ok (some b) ∈ runResults env fuel S n →
    b ∈ S.trees.map Prod.fst := by
  intro n
  induction n with
  | zero =>
    intro S b h1 h2
    simp [runResults] at h2
  | succ n ih =>
    intro S b h1 h2
    simp only [runResults] at h2
    by_cases h0 : S.remaining = 0
    · rw [next_of_remaining_zero env fuel S h0] at h2
      dsimp only at h2
      rcases List.mem_cons.mp h2 with heq | h3
      · exact absurd heq (by simp)
      · exact ih S b h1 h3
    · unfold Splicer.next at h2
      rw [if_neg h0] at h2
      by_cases ht : S.trees.length = 0
      · rw [ht, gen_range_zero] at h2
        simp at h2
      · rw [gen_range_of_ne_zero _ ht] at h2
        dsimp only at h2
        rw [splice_tree_one env S fuel _ _ _ h1] at h2
        dsimp only at h2
        rcases List.mem_cons.mp h2 with heq | h3
        · simp only [Res.ok.injEq, Option.some.injEq] at heq
          subst heq
          exact List.mem_map_of_mem Prod.fst
            (getD_mem_of_lt _ (Nat.mod_lt _ (Nat.pos_of_ne_zero ht)))
        · exact ih ⟨S.branches, S.chaos, S.deletions, S.kinds, S.inter_splices,
            S.node_types, S.trees, S.remaining - 1,
            ⟨S.rng.stream, S.rng.idx + 1 + 1⟩⟩ b h1 h3

/-- C4: when `inter_splices = 1` the round count drawn in `splice_tree`
is `x % 1 = 0`, so every test case undergoes exactly zero mutation rounds
and every yielded item is byte-equal to the content of one of the corpus
files.  The witness instantiates the spec's regression scenario
(`inter_splices = 1, tests = 5, deletions = 0, chaos = 0, seed = 42`,
two-file corpus): five items are yielded, each an original file. -/
theorem C4_inter_splices_one (env : Env) (fuel : Nat) (cfg : Config)
    (files : List (Bytes × TSTree)) (bl : Branches) (n : Nat) (b : Bytes)
    (h1 : cfg.inter_splices = 1)
    (h2 : Res.ok (some b) ∈ runResults env fuel (splice env cfg files bl) n) :
    b ∈ files.map Prod.fst := by
  have h3 := c4_aux env fuel n (splice env cfg files bl) b h1 h2
  simpa [splice] using h3

/-- C9: when `inter_splices = 0` and the corpus admits at least one
mutation and at least one test is requested, the very first call to `next`
panics: `splice_tree` invokes `gen_range` on the empty range `0..0`
instead of yielding an item or ending the sequence cleanly. -/
theorem C9_inter_splices_zero_panics (env : Env) (fuel : Nat) (cfg : Config)
    (files : List (Bytes × TSTree)) (bl : Branches)
    (h0 : cfg.inter_splices = 0) (h1 : 1 ≤ cfg.tests)
    (h2 : 1 ≤ Branches.possible bl) :
    Splicer.next env fuel (splice env cfg files bl) = .panicked := by
  have hrem : (splice env cfg files bl).remaining ≠ 0 := by
    have h3 : 1 ≤ min cfg.tests (Branches.possible bl) := Nat.le_min.mpr ⟨h1, h2⟩
    simp only [splice]
    omega
  unfold Splicer.next
  rw [if_neg hrem]
  by_cases ht : (splice env cfg files bl).trees.length = 0
  · rw [ht, gen_range_zero]
  · rw [gen_range_of_ne_zero _ ht]
    dsimp only
    rw [splice_tree_zero env _ fuel _ _ _ h0]

/-! ### Node selection and the splice loops -/

theorem pick_node_ok (tree : TSTree) (r : Rng) :
    ∃ nd r1, pick_node tree r = .ok (nd, r1) ∧
      (nd = tree ∨ nd ∈ all_nodes tree) := by
  unfold pick_node
  cases hn : all_nodes tree with
  | nil => exact ⟨tree, r, rfl, Or.inl rfl⟩
  | cons n0 rest =>
    refine ⟨(n0 :: rest).getD (r.stream r.idx % (n0 :: rest).length) tree,
      ⟨r.stream, r.idx + 1⟩, rfl, Or.inr ?_⟩
    exact getD_mem_of_lt tree (Nat.mod_lt _ (Nat.succ_pos _))

/-- C8: the deletion policy never rejection-samples forever on a tree with
no optional node: when the chaos roll does not fire and the node classifier
marks no node of the tree optional, `delete_node` falls back to one
unrestricted uniform pick and returns that node with an empty replacement
(an `ok` outcome for every fuel, never `diverged`). -/
theorem C8_delete_no_optional_fallback (S : Splicer) (text : Bytes)
    (tree : TSTree) (fuel : Nat) (r : Rng)
    (hroll : ¬ r.stream r.idx % 100 < S.chaos)
    (hopt : ∀ nd ∈ all_nodes tree, S.node_types nd.kindOf = false) :
    ∃ nd r2, (nd = tree ∨ nd ∈ all_nodes tree) ∧
      Splicer.delete_node S text tree fuel r = .ok ((nd.nid, []), r2) := by
  unfold Splicer.delete_node
  rw [gen_range_of_ne_zero r (by decide)]
  dsimp only
  rw [if_neg hroll]
  have hall : ((all_nodes tree).all fun nd => ! S.node_types nd.kindOf) = true := by
    rw [List.all_eq_true]
    intro nd hnd
    simp [hopt nd hnd]
  rw [if_pos hall]
  obtain ⟨nd, r2, hpick, hmem⟩ := pick_node_ok tree ⟨r.stream, r.idx + 1⟩
  rw [hpick]
  exact ⟨nd, r2, hmem, rfl⟩

theorem splice_search_false_spin (S : Splicer) (tree : TSTree)
    (h : ∀ nd, (nd = tree ∨ nd ∈ all_nodes tree) →
      (lookupBranch S.branches nd.kindOf).length ≤ 1) :
    ∀ (fuel : Nat) (r : Rng), splice_search S tree false fuel r = .diverged := by
  intro fuel
  induction fuel with
  | zero => intro r; rfl
  | succ f ih =>
    intro r
    unfold splice_search
    obtain ⟨nd, r1, hpick, hmem⟩ := pick_node_ok tree r
    rw [hpick]
    dsimp only
    rw [if_neg Bool.false_ne_true]
    dsimp only
    rw [if_pos (h nd hmem)]
    exact ih r1

theorem splice_search_ok (S : Splicer) (tree : TSTree) (chaotic : Bool) :
    ∀ (fuel : Nat) (r : Rng) (nd : TSTree) (cands : List Bytes) (r2 : Rng),
    splice_search S tree chaotic fuel r = .ok ((nd, cands), r2) →
    2 ≤ cands.length ∧ (nd = tree ∨ nd ∈ all_nodes tree) ∧
      ∃ k, cands = lookupBranch S.branches k ∧ (chaotic = false → k = nd.kindOf) := by
  intro fuel
  induction fuel with
  | zero => intro r nd cands r2 h; cases h
  | succ f ih =>
    intro r nd cands r2 h
    unfold splice_search at h
    obtain ⟨nd1, r1, hpick, hmem⟩ := pick_node_ok tree r
    rw [hpick] at h
    dsimp only at h
    cases chaotic with
    | false =>
      rw [if_neg Bool.false_ne_true] at h
      dsimp only at h
      by_cases hlen : (lookupBranch S.branches nd1.kindOf).length ≤ 1
      · rw [if_pos hlen] at h
        exact ih r1 nd cands r2 h
      · rw [if_neg hlen] at h
        simp only [Res.ok.injEq, Prod.mk.injEq] at h
        obtain ⟨⟨h1, h2⟩, -⟩ := h
        subst h1
        subst h2
        exact ⟨by omega, hmem, nd1.kindOf, rfl, fun _ => rfl⟩
    | true =>
      rw [if_pos (Eq.refl true)] at h
      by_cases hk : S.kinds.length = 0
      · rw [hk, gen_range_zero] at h
        dsimp only at h
        cases h
      · rw [gen_range_of_ne_zero r1 hk] at h
        dsimp only at h
        by_cases hlen : (lookupBranch S.branches
            (S.kinds.getD (r1.stream r1.idx % S.kinds.length) noKind)).length ≤ 1
        · rw [if_pos hlen] at h
          exact ih _ nd cands r2 h
        · rw [if_neg hlen] at h
          simp only [Res.ok.injEq, Prod.mk.injEq] at h
          obtain ⟨⟨h1, h2⟩, -⟩ := h
          subst h1
          subst h2
          exact ⟨by omega, hmem, _, rfl, fun hc => by cases hc⟩

theorem resample_loop_mem (cands : List Bytes) (ntext : Bytes) :
    ∀ (fuel : Nat) (cand : Bytes) (r : Rng) (out : Bytes) (r2 : Rng),
    cand ∈ cands → resample_loop cands ntext fuel cand r = .ok (out, r2) →
    out ∈ cands := by
  intro fuel
  induction fuel with
  | zero =>
    intro cand r out r2 hc h
    unfold resample_loop at h
    by_cases hcond : 1 < cands.length ∧ cand = ntext
    · rw [if_pos hcond] at h
      cases h
    · rw [if_neg hcond] at h
      simp only [Res.ok.injEq, Prod.mk.injEq] at h
      exact h.1 ▸ hc
  | succ f ih =>
    intro cand r out r2 hc h
    unfold resample_loop at h
    by_cases hcond : 1 < cands.length ∧ cand = ntext
    · rw [if_pos hcond] at h
      have hne : cands.length ≠ 0 := by omega
      rw [gen_range_of_ne_zero r hne] at h
      dsimp only at h
      exact ih _ _ out r2
        (getD_mem_of_lt [] (Nat.mod_lt _ (Nat.pos_of_ne_zero hne))) h
    · rw [if_neg hcond] at h
      simp only [Res.ok.injEq, Prod.mk.injEq] at h
      exact h.1 ▸ hc

/-- C10: the candidate-pool search loop of `splice_node` does not terminate
for some inputs: when the chaos roll has not fired and every node the pick
can return (the root or any member of `all_nodes`) has a kind whose pool in
the branch table holds at most one fragment, the loop diverges for every
fuel bound — the source has no iteration cap or fallback.  Conversely,
whenever the loop does exit, the returned pool has at least two elements
and, being a pool of the table built from the corpus, its fragments are
pairwise distinct. -/
theorem C10_candidate_search_loop (files : List (Bytes × TSTree)) :
    (∀ (S : Splicer) (tree : TSTree) (fuel : Nat) (r : Rng),
      (∀ nd, (nd = tree ∨ nd ∈ all_nodes tree) →
        (lookupBranch S.branches nd.kindOf).length ≤ 1) →
      splice_search S tree false fuel r = .diverged) ∧
    (∀ (S : Splicer) (tree : TSTree) (chaotic : Bool) (fuel : Nat) (r : Rng)
      (nd : TSTree) (cands : List Bytes) (r2 : Rng),
      S.branches = Branches.new files →
      splice_search S tree chaotic fuel r = .ok ((nd, cands), r2) →
      2 ≤ cands.length ∧ cands.Nodup) := by
  constructor
  · intro S tree fuel r h
    exact splice_search_false_spin S tree h fuel r
  · intro S tree chaotic fuel r nd cands r2 hbl h
    obtain ⟨hlen, -, k, hk, -⟩ := splice_search_ok S tree chaotic fuel r nd cands r2 h
    refine ⟨hlen, ?_⟩
    rw [hk, hbl]
    exact lookup_nodup_new files k

/-- C5: with `chaos = 0` the chaotic branch of `splice_node` is dead, so
every successful call returns a target node of the tree together with
replacement bytes drawn from the branch-table pool of that node's own
kind; with the table built from the corpus, the replacement is the exact
byte slice of some corpus node of that same kind — no fabricated text. -/
theorem C5_chaosless_fragment_same_kind (files : List (Bytes × TSTree))
    (S : Splicer) (text : Bytes) (tree : TSTree) (fuel : Nat) (r : Rng)
    (nid : Nat) (bytes : Bytes) (r4 : Rng)
    (hchaos : S.chaos = 0) (hbl : S.branches = Branches.new files)
    (h : S.splice_node text tree fuel r = .ok ((nid, bytes), r4)) :
    ∃ nd, (nd = tree ∨ nd ∈ all_nodes tree) ∧ nid = nd.nid ∧
      bytes ∈ lookupBranch S.branches nd.kindOf ∧
      2 ≤ (lookupBranch S.branches nd.kindOf).length ∧
      ∃ p ∈ files, ∃ src ∈ level_order [p.2],
        src.kindOf = nd.kindOf ∧ bytes = sliceB p.1 src.lo src.hi := by
  unfold Splicer.splice_node at h
  rw [gen_range_of_ne_zero r (by decide)] at h
  dsimp only at h
  rw [hchaos] at h
  rw [show decide (r.stream r.idx % 100 < 0) = false from by simp] at h
  cases hsearch : splice_search S tree false fuel ⟨r.stream, r.idx + 1⟩ with
  | panicked => rw [hsearch] at h; cases h
  | diverged => rw [hsearch] at h; cases h
  | ok q =>
    obtain ⟨⟨nd, cands⟩, r2⟩ := q
    rw [hsearch] at h
    dsimp only at h
    obtain ⟨hlen, hmem, k, hk, hkk⟩ :=
      splice_search_ok S tree false fuel _ nd cands r2 hsearch
    have hkk2 : k = nd.kindOf := hkk rfl
    subst hkk2
    have hne : cands.length ≠ 0 := by omega
    rw [gen_range_of_ne_zero r2 hne] at h
    dsimp only at h
    cases hres : resample_loop cands (sliceB text nd.lo nd.hi) fuel
        (cands.getD (r2.stream r2.idx % cands.length) []) ⟨r2.stream, r2.idx + 1⟩ with
    | panicked => rw [hres] at h; cases h
    | diverged => rw [hres] at h; cases h
    | ok q2 =>
      obtain ⟨cand, r4b⟩ := q2
      rw [hres] at h
      dsimp only at h
      simp only [Res.ok.injEq, Prod.mk.injEq] at h
      obtain ⟨⟨hnid, hbytes⟩, -⟩ := h
      have hcand : cand ∈ cands :=
        resample_loop_mem cands _ fuel _ _ cand r4b
          (getD_mem_of_lt [] (Nat.mod_lt _ (Nat.pos_of_ne_zero hne))) hres
      subst hbytes
      refine ⟨nd, hmem, hnid.symm, ?_, ?_, ?_⟩
      · rw [← hk]
        exact hcand
      · rw [← hk]
        exact hlen
      · have hmem2 : cand ∈ lookupBranch (Branches.new files) nd.kindOf := by
          rw [← hbl, ← hk]
          exact hcand
        exact (mem_lookup_new files nd.kindOf cand).mp hmem2

/-! ### Concrete corpora, environments and runs -/

/-- Kind label used by the concrete corpora below. -/
def kR : String := "r"

/-- Kind label used by the concrete corpora below. -/
def kX : String := "x"

/-- Kind label used by the concrete corpora below. -/
def kW : String := "w"

/-- Kind label used by the concrete corpora below. -/
def kY : String := "y"

/-- Kind label used by the concrete corpora below. -/
def kZ : String := "z"

/-- A trivial reparse: any text parses to a bare root spanning it. -/
def idParse : Bytes → TSTree := fun b => tnode 99 kR 0 b.length []

/-- A renderer that always succeeds, returning the replacement bytes. -/
def okRender : TSTree → Bytes → Nat → Bytes → Option Bytes := fun _ _ _ b => some b

/-- A renderer that always fails (models a failing tree-sitter-edit render). -/
def noRender : TSTree → Bytes → Nat → Bytes → Option Bytes := fun _ _ _ _ => none

/-- Two-file corpus for the C4 regression scenario: each file has a root of
kind `r` with four children of four further kinds, so the mutation budget
is 5. -/
def w42TreeA : TSTree :=
  tnode 1 kR 0 4 [tnode 2 kW 0 1 [], tnode 3 kX 1 2 [], tnode 4 kY 2 3 [],
    tnode 5 kZ 3 4 []]

/-- Second file of the C4 corpus. -/
def w42TreeB : TSTree :=
  tnode 6 kR 0 4 [tnode 7 kW 0 1 [], tnode 8 kX 1 2 [], tnode 9 kY 2 3 [],
    tnode 10 kZ 3 4 []]

/-- The C4 corpus. -/
def w42Files : List (Bytes × TSTree) := [([1, 2, 3, 4], w42TreeA), ([5, 6, 7, 8], w42TreeB)]

/-- Environment for the C4 scenario; the seed-to-stream map is an arbitrary
fixed function of the seed. -/
def w42Env : Env := { parse := idParse, render := okRender, std_rng := fun s i => s + i }

/-- The spec's regression configuration:
`inter_splices 1, tests 5, deletions 0, chaos 0, seed 42`. -/
def w42Cfg : Config :=
  { chaos := 0, deletions := 0, inter_splices := 1,
    node_types := fun _ => false, seed := 42, tests := 5 }

/-- A one-file corpus whose tree is a bare root: budget 0. -/
def leafFiles : List (Bytes × TSTree) := [([1, 2], tnode 1 kR 0 2 [])]

/-- Config with `inter_splices = 0` for the C9 panic. -/
def c9Cfg : Config :=
  { chaos := 0, deletions := 0, inter_splices := 0,
    node_types := fun _ => false, seed := 7, tests := 1 }

/-- Two-file corpus whose kind `x` pool has the two fragments `[1,2]` and
`[3,4]`. -/
def c5TreeA : TSTree := tnode 1 kR 0 2 [tnode 2 kX 0 2 []]

/-- Second file of the two-file corpus. -/
def c5TreeB : TSTree := tnode 3 kR 0 2 [tnode 4 kX 0 2 []]

/-- The two-file corpus. -/
def c5Files : List (Bytes × TSTree) := [([1, 2], c5TreeA), ([3, 4], c5TreeB)]

/-- Draw stream for the concrete `splice_node` run. -/
def c5Stream : Nat → Nat := fun i => [0, 0, 0, 1].getD i 0

/-- Config for the two-file corpus runs. -/
def c5Cfg : Config :=
  { chaos := 0, deletions := 0, inter_splices := 2,
    node_types := fun _ => false, seed := 0, tests := 2 }

/-- Environment whose seeded stream is `c5Stream`. -/
def c5Env : Env := { parse := idParse, render := okRender, std_rng := fun _ i => c5Stream i }

/-- The splicer of the two-file corpus. -/
def c5S : Splicer := splice c5Env c5Cfg c5Files (Branches.new c5Files)

/-- Tree whose only non-root node has a kind with a pool of at most one
fragment in the `leafFiles` table. -/
def c10Tree : TSTree := tnode 1 kR 0 2 [tnode 2 kX 0 2 []]

/-- Splicer over the budget-0 corpus, used to exhibit the diverging search. -/
def c10S : Splicer := splice w42Env c5Cfg leafFiles (Branches.new leafFiles)

/-- Draw stream for the render-failure run: item one does one mutation
round (render fails), item two does zero rounds. -/
def c2Stream : Nat → Nat := fun i => [0, 1, 0, 0, 0, 0, 1, 0, 0].getD i 0

/-- Environment whose renderer always fails. -/
def c2Env : Env := { parse := idParse, render := noRender, std_rng := fun _ i => c2Stream i }

/-- The splicer of the render-failure run. -/
def c2S : Splicer := splice c2Env c5Cfg c5Files (Branches.new c5Files)

/-- The state a `next` outcome carries, with a default for the other cases. -/
def stateAfter (d : Splicer) : Res (Option Bytes × Splicer) → Splicer
  | .ok (_, s) => s
  | .panicked => d
  | .diverged => d

/-- C2: a render failure mid-splice is recoverable at the level of one
test case: `next` still returns `ok` with no item and decrements
`remaining` by exactly one, never more, so subsequent calls proceed.  In
the concrete run the renderer always fails: the first item does one
mutation round and is skipped (`none`), and the very next call yields an
item (a zero-round test case that needs no render). -/
theorem C2_render_failure_skips_only_item :
    (∀ (env : Env) (fuel : Nat) (S : Splicer) (o : Option Bytes) (S1 : Splicer),
      Splicer.next env fuel S = .ok (o, S1) → S.remaining ≠ 0 →
      S1.remaining = S.remaining - 1) ∧
    runResults c2Env 9 c2S 2 = [Res.ok none, Res.ok (some [1, 2])] := by
  constructor
  · intro env fuel S o S1 h h0
    rcases next_ok_cases h with ⟨h1, -, -⟩ | ⟨-, h1, -, -⟩
    · exact absurd h1 h0
    · exact h1
  · decide

/-- Witness for C2: in the failing-render run, the state after the skipped
first item still has one item of budget left. -/
theorem C2_witness :
    (stateAfter c2S (Splicer.next c2Env 9 c2S)).remaining = c2S.remaining - 1 :=
  C2_render_failure_skips_only_item.1 c2Env 9 c2S none
    (stateAfter c2S (Splicer.next c2Env 9 c2S)) rfl (by decide)

/-- Three-file corpus for the determinism analysis: three one-byte files,
each a root of kind `r` over one child of kind `x`, so the `x` pool has
the three fragments `[1]`, `[2]`, `[3]`. -/
def c1T1 : TSTree := tnode 1 kR 0 1 [tnode 2 kX 0 1 []]

/-- Second file. -/
def c1T2 : TSTree := tnode 3 kR 0 1 [tnode 4 kX 0 1 []]

/-- Third file. -/
def c1T3 : TSTree := tnode 5 kR 0 1 [tnode 6 kX 0 1 []]

/-- The three-file corpus. -/
def c1Files : List (Bytes × TSTree) := [([1], c1T1), ([2], c1T2), ([3], c1T3)]

/-- Draw stream shared by the two C1 runs (same seed, same draws). -/
def c1Stream : Nat → Nat := fun i => [0, 1, 0, 0, 0, 1].getD i 0

/-- Environment shared by the two C1 runs. -/
def c1Env : Env := { parse := idParse, render := okRender, std_rng := fun _ i => c1Stream i }

/-- Config shared by the two C1 runs. -/
def c1Cfg : Config :=
  { chaos := 0, deletions := 0, inter_splices := 2,
    node_types := fun _ => false, seed := 11, tests := 1 }

/-- One hash-order materialisation of the branch table of `c1Files`
(the canonical first-occurrence order). -/
def c1bl1 : Branches := Branches.new c1Files

/-- Another materialisation of the same table: the same kinds and the same
fragment sets, with the `x` pool listed in a different `HashSet` iteration
order. -/
def c1bl2 : Branches := [(kR, [[1], [2], [3]]), (kX, [[1], [3], [2]])]

/-- C1 (refuted; the code contradicts the spec's determinism property):
with one fixed seed, Config and corpus, two runs of `splice` can produce
different byte sequences.  The fragment vectors of the branch table are
materialised from `HashSet`s, and the `kinds` vector from `HashMap` keys,
in Rust's per-instance randomized hash iteration order; the fragment drawn
by `gen_range` is taken by index from such a vector, so the output bytes
depend on that order.  Both orders below are valid materialisations of the
same corpus, the seed and all draws are identical, and the two runs yield
`[2]` and `[3]` respectively. -/
theorem C1_hash_order_breaks_determinism :
    ValidMaterialization c1Files c1bl1 ∧ ValidMaterialization c1Files c1bl2 ∧
      runResults c1Env 5 (splice c1Env c1Cfg c1Files c1bl1) 1 =
        [Res.ok (some [2])] ∧
      runResults c1Env 5 (splice c1Env c1Cfg c1Files c1bl2) 1 =
        [Res.ok (some [3])] ∧
      runResults c1Env 5 (splice c1Env c1Cfg c1Files c1bl1) 1 ≠
        runResults c1Env 5 (splice c1Env c1Cfg c1Files c1bl2) 1 := by
  refine ⟨?_, ?_, ?_, ?_, ?_⟩ <;> decide

/-- Witness for C3: on a one-file corpus whose tree is a bare root the
budget is 0, and three calls yield three clean `none`s and no panic. -/
theorem C3_witness :
    countSome (runResults w42Env 4 (splice w42Env w42Cfg leafFiles
        (Branches.new leafFiles)) 3) ≤
      min w42Cfg.tests (Branches.possible (Branches.new leafFiles)) ∧
    runResults w42Env 4 (splice w42Env w42Cfg leafFiles (Branches.new leafFiles)) 3 =
      List.replicate 3 (Res.ok none) :=
  ⟨(C3_yield_cap w42Env 4 w42Cfg leafFiles (Branches.new leafFiles) 3
      (by decide)).1 w42Cfg leafFiles (Branches.new leafFiles),
    (C3_yield_cap w42Env 4 w42Cfg leafFiles (Branches.new leafFiles) 3
      (by decide)).2⟩

/-- Witness for C4: the spec's regression scenario — five items are
yielded, and a yielded item is byte-equal to one of the two corpus files. -/
theorem C4_witness :
    countSome (runResults w42Env 4 (splice w42Env w42Cfg w42Files
        (Branches.new w42Files)) 5) = 5 ∧
      [1, 2, 3, 4] ∈ w42Files.map Prod.fst :=
  ⟨by decide,
    C4_inter_splices_one w42Env 4 w42Cfg w42Files (Branches.new w42Files) 5
      [1, 2, 3, 4] rfl (by decide)⟩

/-- Witness for C5: on the two-file corpus the concrete `splice_node` run
returns node 2 (kind `x`) with replacement `[3,4]`, a corpus fragment of
the same kind. -/
theorem C5_witness :
    ∃ nd, (nd = c5TreeA ∨ nd ∈ all_nodes c5TreeA) ∧ 2 = nd.nid ∧
      [3, 4] ∈ lookupBranch c5S.branches nd.kindOf ∧
      2 ≤ (lookupBranch c5S.branches nd.kindOf).length ∧
      ∃ p ∈ c5Files, ∃ src ∈ level_order [p.2],
        src.kindOf = nd.kindOf ∧ [3, 4] = sliceB p.1 src.lo src.hi :=
  C5_chaosless_fragment_same_kind c5Files c5S [1, 2] c5TreeA 4 ⟨c5Stream, 0⟩ 2
    [3, 4] ⟨c5Stream, 4⟩ rfl rfl rfl

/-- Witness for C6: the two-file corpus table has the non-empty pool
`[[1,2],[3,4]]` for kind `r`, and its budget satisfies the integer sum
formula. -/
theorem C6_witness :
    ((kR, ([[1, 2], [3, 4]] : List Bytes)).2 ≠ []) ∧
      ((Branches.possible (Branches.new c5Files) : ℤ) =
        ((Branches.new c5Files).map fun e => (e.2.length : ℤ) - 1).sum) :=
  ⟨(C6_mutation_budget c5Files).1 (kR, [[1, 2], [3, 4]]) (by decide),
    (C6_mutation_budget c5Files).2.1⟩

/-- Witness for C7: on the two-file corpus the table keys are distinct,
the `r` entry is a non-empty duplicate-free pool, and kind `x` is present
exactly because an `x` node is observed in a corpus tree. -/
theorem C7_witness :
    ((Branches.new c5Files).map Prod.fst).Nodup ∧
      ((kR, ([[1, 2], [3, 4]] : List Bytes)).2 ≠ [] ∧
        ((kR, ([[1, 2], [3, 4]] : List Bytes)).2).Nodup) ∧
      ((∃ e ∈ Branches.new c5Files, e.1 = kX) ↔
        ∃ p ∈ c5Files, ∃ nd ∈ level_order [p.2], nd.kindOf = kX) :=
  ⟨(C7_branch_table_invariants c5Files).1,
    (C7_branch_table_invariants c5Files).2.1 (kR, [[1, 2], [3, 4]]) (by decide),
    (C7_branch_table_invariants c5Files).2.2 kX⟩

/-- Witness for C8: on a tree none of whose nodes is optional, with the
chaos roll not firing, `delete_node` returns a node with an empty
replacement (no divergence even at fuel 0). -/
theorem C8_witness :
    ∃ nd r2, (nd = w42TreeA ∨ nd ∈ all_nodes w42TreeA) ∧
      Splicer.delete_node c10S [1, 2, 3, 4] w42TreeA 0 ⟨c5Stream, 0⟩ =
        Res.ok ((nd.nid, []), r2) :=
  C8_delete_no_optional_fallback c10S [1, 2, 3, 4] w42TreeA 0 ⟨c5Stream, 0⟩
    (by decide) (by decide)

/-- Witness for C9: with `inter_splices = 0` over a positive-budget corpus
the first `next` call panics. -/
theorem C9_witness :
    Splicer.next w42Env 3 (splice w42Env c9Cfg w42Files (Branches.new w42Files)) =
      Res.panicked :=
  C9_inter_splices_zero_panics w42Env 3 c9Cfg w42Files (Branches.new w42Files)
    rfl (by decide) (by decide)

/-- Witness for C10: over the budget-0 table every pool has at most one
fragment and the search over `c10Tree` diverges at fuel 5; on the two-file
corpus a successful search returns the pool `[[1,2],[3,4]]`, which has two
pairwise-distinct fragments. -/
theorem C10_witness :
    splice_search c10S c10Tree false 5 ⟨c5Stream, 0⟩ = Res.diverged ∧
      (2 ≤ ([[1, 2], [3, 4]] : List Bytes).length ∧
        ([[1, 2], [3, 4]] : List Bytes).Nodup) := by
  constructor
  · apply (C10_candidate_search_loop leafFiles).1
    intro nd hnd
    have hall : all_nodes c10Tree = [tnode 2 kX 0 2 []] := by decide
    rcases hnd with rfl | hmem
    · decide
    · rw [hall] at hmem
      rcases List.mem_singleton.mp hmem with rfl
      decide
  · exact (C10_candidate_search_loop c5Files).2 c5S c5TreeA false 4 ⟨c5Stream, 1⟩
      (tnode 2 kX 0 2 []) [[1, 2], [3, 4]] ⟨c5Stream, 2⟩ rfl rfl
